import Mathlib

/-!
Verification of the change-aware structured-diff engine of
rosdistro-reviewer: line-range arithmetic (`git_lines.py`),
line-annotated YAML trees (`yaml_lines.py`), and the isolate/prune
passes (`yaml_changes.py`), shallowly embedded and proved against the
natural-language specification.
-/

/-- Half-open interval of source lines, mirroring Python `range(start, stop)`
as used for `__lines__` annotations. -/
structure LineRange where
  start : Nat
  stop : Nat
deriving DecidableEq, Repr

/-- Truthiness of an optional Python `range`: `None` and empty ranges are
falsy; a range is truthy iff it is non-empty (`len(r) > 0`). This is the
test performed by `getattr(x, '__lines__', None)` used in a condition. -/
def truthy : Option LineRange → Bool
  | none => false
  | some r => r.start < r.stop

/-- Embedding of `yaml_changes._contains`: does `needle` intersect any
member of `haystack`?  `None` never intersects. -/
def rangeHits (needle : Option LineRange) (haystack : List LineRange) : Bool :=
  match needle with
  | none => false
  | some a => haystack.any fun b => a.start < b.stop && a.stop > b.start

mutual
/-- Annotated YAML tree. `plain` stands for a scalar constructed without a
`__lines__` attribute (numbers, booleans, null); `str` is an
`AnnotatedStr`; `seq` an `AnnotatedList`; `map` an `AnnotatedDict` whose
entries pair an (annotated or plain) key node with a value node. The
`lines` field is the mutable `__lines__` slot (`none` once cleared). -/
inductive Node where
  | plain (v : String)
  | str (v : String) (lines : Option LineRange)
  | seq (lines : Option LineRange) (items : NodeList)
  | map (lines : Option LineRange) (entries : EntryList)
deriving DecidableEq, Repr

inductive NodeList where
  | nil
  | cons (head : Node) (tail : NodeList)
deriving DecidableEq, Repr

inductive EntryList where
  | nil
  | cons (key value : Node) (tail : EntryList)
deriving DecidableEq, Repr
end

/-- Embedding of `hasattr(x, '__lines__')`: true for the annotated subclasses only. -/
def hasLinesAttr : Node → Bool
  | .plain _ => false
  | _ => true

/-- Read the `__lines__` slot (`none` both for a cleared slot and for a
plain scalar, which has no slot at all — `hasLinesAttr` separates them). -/
def getLines : Node → Option LineRange
  | .plain _ => none
  | .str _ l => l
  | .seq l _ => l
  | .map l _ => l

/-- Assign the `__lines__` slot (`x.__lines__ = ...`); a no-op on plain
scalars, which the code never assigns to. -/
def setLines : Node → Option LineRange → Node
  | .plain v, _ => .plain v
  | .str v _, l => .str v l
  | .seq _ xs, l => .seq l xs
  | .map _ es, l => .map l es

def NodeList.append : NodeList → NodeList → NodeList
  | .nil, ys => ys
  | .cons x xs, ys => .cons x (xs.append ys)

def EntryList.append : EntryList → EntryList → EntryList
  | .nil, ys => ys
  | .cons k v xs, ys => .cons k v (xs.append ys)

def EntryList.length : EntryList → Nat
  | .nil => 0
  | .cons _ _ xs => xs.length + 1

mutual
/-- Embedding of `yaml_changes._isolate` (value semantics: the Python code
mutates in place; here the updated tree is returned).  A plain scalar has
no `__lines__` attribute, so the function returns immediately.  Otherwise
the node's own range is cleared unless it intersects `changes`, and then
lists and dicts are traversed as in the source. -/
def isolate (changes : List LineRange) : Node → Node
  | .plain v => .plain v
  | .str v l => .str v (if rangeHits l changes then l else none)
  | .seq l items =>
      .seq (if rangeHits l changes then l else none) (isolateItems changes items)
  | .map l entries =>
      .map (if rangeHits l changes then l else none) (isolateEntries changes entries)

/-- The `isinstance(data, list)` arm of `_isolate`: an item that intersects
`changes` is recursed into; an annotated item that does not is only
stripped of its own range; a plain item is skipped. -/
def isolateItems (changes : List LineRange) : NodeList → NodeList
  | .nil => .nil
  | .cons item rest =>
      .cons
        (if hasLinesAttr item then
          if rangeHits (getLines item) changes then isolate changes item
          else setLines item none
        else item)
        (isolateItems changes rest)

/-- The `isinstance(data, dict)` arm of `_isolate`: an entry whose key
intersects `changes` is left entirely alone (`continue`); otherwise the
key's range is cleared (when the key is annotated) and the value is
recursed into. -/
def isolateEntries (changes : List LineRange) : EntryList → EntryList
  | .nil => .nil
  | .cons k v rest =>
      (if hasLinesAttr k then
        if rangeHits (getLines k) changes then .cons k v (isolateEntries changes rest)
        else .cons (setLines k none) (isolate changes v) (isolateEntries changes rest)
      else .cons k (isolate changes v) (isolateEntries changes rest))
end

/-- Loop of `git_lines._rangeify`.  The state encodes the pair
`(chunk_start, chunk_last)` of the Python generator: `none` before the
first item (both variables `None`), and `some (s, l)` afterwards (from the
first iteration on, both are set together).  The guard `chunk_last != item - 1`
over Python integers is equivalent to `l + 1 != item`. -/
def rangeifyGo : Option (Nat × Nat) → List Nat → List LineRange
  | none, [] => []
  | some (s, l), [] => [⟨s, l + 1⟩]
  | none, item :: rest => rangeifyGo (some (item, item)) rest
  | some (s, l), item :: rest =>
      if l + 1 = item then rangeifyGo (some (s, item)) rest
      else ⟨s, l + 1⟩ :: rangeifyGo (some (item, item)) rest

/-- Embedding of `git_lines._rangeify`: fold consecutive runs of line
numbers into half-open ranges. -/
def rangeify (xs : List Nat) : List LineRange :=
  rangeifyGo none xs

/-- The line numbers covered by a list of ranges, in order. -/
def linesOf (rs : List LineRange) : List Nat :=
  rs.flatMap fun r => List.range' r.start (r.stop - r.start)

/-- Membership of a line number in a half-open range. -/
def memRange (n : Nat) (r : LineRange) : Prop :=
  r.start ≤ n ∧ n < r.stop

instance (n : Nat) (r : LineRange) : Decidable (memRange n r) := by
  unfold memRange; infer_instance

/-- One entry of a git diff, as consumed by `get_added_lines`: the
`b_path` of the diff (absent for a deletion, where Python's falsy test
skips the entry) and, for the unidiff patch parsed from it, the
`(normalized file path, target_line_no)` of every `LINE_TYPE_ADDED`
line, in patch order. -/
structure DiffEntry where
  b_path : Option String
  addedLines : List (String × Nat)

/-- Abstract git collaborator: commits are identifiers; `commit` resolves a
ref, `parents` lists a commit's parents, `mergeBase` mirrors
`repo.merge_base` (a list that may be empty or hold `None`s), and `diff`
yields the diff entries between a base commit and a head (or the working
tree when the head is absent), restricted to `paths`. -/
structure GitRepo where
  commit : String → Nat
  headCommit : Nat
  parents : Nat → List Nat
  mergeBase : Nat → Nat → List (Option Nat)
  diff : Nat → Option Nat → Option (List String) → List DiffEntry

inductive GitError where
  | mergeBaseNotFound
  | noParent
deriving DecidableEq, Repr

/-- Embedding of `lines.setdefault(path, []).append(n)` on an insertion-ordered dict
modelled as an association list. -/
def addLine (acc : List (String × List Nat)) (p : String) (n : Nat) :
    List (String × List Nat) :=
  match acc with
  | [] => [(p, [n])]
  | (q, ns) :: rest =>
      if q = p then (q, ns ++ [n]) :: rest else (q, ns) :: addLine rest p n

/-- The line-collection loop of `get_added_lines`: entries with a falsy
`b_path` are skipped; every added line of the others is appended under its
file path. -/
def collectLines (diffs : List DiffEntry) : List (String × List Nat) :=
  diffs.foldl
    (fun acc d =>
      if d.b_path.isSome then
        d.addedLines.foldl (fun a pn => addLine a pn.1 pn.2) acc
      else acc)
    []

/-- Assignment into an insertion-ordered dict (`d[k] = v`): an existing
key keeps its position and gets the new value, a new key is appended. -/
def dictInsert (m : List (String × List LineRange)) (k : String)
    (v : List LineRange) : List (String × List LineRange) :=
  match m with
  | [] => [(k, v)]
  | (q, w) :: rest =>
      if q = k then (q, v) :: rest else (q, w) :: dictInsert rest k v

/-- Build a Python dict from a list of key/value pairs (the semantics of a
dict comprehension: later assignments overwrite, first position wins). -/
def pyDict (l : List (String × List LineRange)) : List (String × List LineRange) :=
  l.foldl (fun m kv => dictInsert m kv.1 kv.2) []

/-- The final dict comprehension of `get_added_lines`: one entry per
requested path (or per collected path when no filter was given), each
mapped to the coalesced ranges of its sorted line numbers. -/
def buildResult (lines : List (String × List Nat)) (paths : Option (List String)) :
    List (String × List LineRange) :=
  let keys := match paths with
    | some ps => ps
    | none => lines.map Prod.fst
  pyDict (keys.map fun p =>
    (p, rangeify (List.insertionSort (· ≤ ·) ((List.lookup p lines).getD []))))

/-- Commit resolution and merge-base logic of `get_added_lines`: resolve
`head` and `target` from the refs, then pick the diff base — the first
non-`None` merge base when a head ref was given (raising when there is
none), the target itself otherwise. -/
def resolveBase (repo : GitRepo) (targetRef headRef : Option String) :
    Except GitError (Nat × Option Nat) :=
  let head := headRef.map repo.commit
  let targetE : Except GitError Nat :=
    match targetRef with
    | some t => .ok (repo.commit t)
    | none =>
        match head with
        | some h =>
            match repo.parents h with
            | p :: _ => .ok p
            | [] => .error .noParent
        | none => .ok repo.headCommit
  match targetE with
  | .error e => .error e
  | .ok target =>
      match head with
      | some h =>
          match (repo.mergeBase target h).find? (fun b => b.isSome) with
          | some (some b) => .ok (b, head)
          | _ => .error .mergeBaseNotFound
      | none => .ok (target, none)

/-- Tail of `get_added_lines` after the diff is computed: collect the
added lines, return `None` when the dict stayed empty, otherwise build
the per-path range mapping. -/
def processDiffs (diffs : List DiffEntry) (paths : Option (List String)) :
    Option (List (String × List LineRange)) :=
  let lines := collectLines diffs
  if lines.isEmpty then none else some (buildResult lines paths)

/-- Embedding of `git_lines.get_added_lines` over the abstract repo. -/
def get_added_lines (repo : GitRepo) (targetRef headRef : Option String)
    (paths : Option (List String)) :
    Except GitError (Option (List (String × List LineRange))) :=
  match resolveBase repo targetRef headRef with
  | .error e => .error e
  | .ok (base, head) => .ok (processDiffs (repo.diff base head paths) paths)

/-- Total number of added lines across all entries of a diff. -/
def totalAdded (diffs : List DiffEntry) : Nat :=
  (diffs.map fun d => d.addedLines.length).sum

mutual
/-- Embedding of `yaml_changes.prune_changed_yaml` (value semantics).
Scalars are untouched; lists and dicts have their children filtered. -/
def prune : Node → Node
  | .plain v => .plain v
  | .str v l => .str v l
  | .seq l items => .seq l (pruneItems items)
  | .map l entries => .map l (pruneEntries entries)

/-- List arm of `prune_changed_yaml`: an item whose `__lines__` is truthy
is kept and recursively pruned; every other item is deleted. -/
def pruneItems : NodeList → NodeList
  | .nil => .nil
  | .cons item rest =>
      if truthy (getLines item) then .cons (prune item) (pruneItems rest)
      else pruneItems rest

/-- Dict arm of `prune_changed_yaml`: an entry with a truthy key range is
kept untouched; failing that, an entry with a truthy value range keeps its
key and recursively prunes its value; otherwise the entry is deleted. -/
def pruneEntries : EntryList → EntryList
  | .nil => .nil
  | .cons k v rest =>
      if truthy (getLines k) then .cons k v (pruneEntries rest)
      else if truthy (getLines v) then .cons k (prune v) (pruneEntries rest)
      else pruneEntries rest
end

/-- One widening step of the loops in
`AnnotatedSafeLoader.construct_annotated_map` / `construct_annotated_seq`:
if the child's `__lines__` has a stop beyond the current range's stop,
extend the current range's stop to it. -/
def widen (cur : LineRange) (l : Option LineRange) : LineRange :=
  match l with
  | some r => if r.stop > cur.stop then ⟨cur.start, r.stop⟩ else cur
  | none => cur

/-- Range bubbling over a mapping's entries, as in
`construct_annotated_map`: starting from the range recorded for the
mapping node itself, widen by each key's and each value's range (the
source iterates the entries in reverse, key before value). -/
def bubbleEntries (cur : LineRange) : EntryList → LineRange
  | .nil => cur
  | .cons k v rest => widen (widen (bubbleEntries cur rest) (getLines k)) (getLines v)

/-- Range bubbling over a sequence's items, as in
`construct_annotated_seq`. -/
def bubbleItems (cur : LineRange) : NodeList → LineRange
  | .nil => cur
  | .cons item rest => widen (bubbleItems cur rest) (getLines item)

mutual
/-- Characterization of the trees produced by `AnnotatedSafeLoader`:
non-string scalars carry no annotation, strings carry the composer's
range, and every mapping or sequence carries the bubbled widening of some
initially recorded range by all of its children's ranges. -/
inductive FromParser : Node → Prop where
  | plain (v : String) : FromParser (.plain v)
  | str (v : String) (r : LineRange) : FromParser (.str v (some r))
  | seq (init : LineRange) (items : NodeList) : FromParserItems items →
      FromParser (.seq (some (bubbleItems init items)) items)
  | map (init : LineRange) (entries : EntryList) : FromParserEntries entries →
      FromParser (.map (some (bubbleEntries init entries)) entries)

inductive FromParserItems : NodeList → Prop where
  | nil : FromParserItems .nil
  | cons {x : Node} {xs : NodeList} : FromParser x → FromParserItems xs →
      FromParserItems (.cons x xs)

inductive FromParserEntries : EntryList → Prop where
  | cons {k v : Node} {es : EntryList} : FromParser k → FromParser v →
      FromParserEntries es → FromParserEntries (.cons k v es)
  | nil : FromParserEntries .nil
end

/-- Bound `stop ≤ n` for an optional range (`none` imposes nothing). -/
def stopLE (n : Nat) : Option LineRange → Bool
  | none => true
  | some r => r.stop ≤ n

mutual
/-- Every annotated node in the tree (the root included) has
`lines.stop ≤ n`. -/
def stopsLE (n : Nat) : Node → Bool
  | .plain _ => true
  | .str _ l => stopLE n l
  | .seq l items => stopLE n l && stopsLEItems n items
  | .map l es => stopLE n l && stopsLEEntries n es

def stopsLEItems (n : Nat) : NodeList → Bool
  | .nil => true
  | .cons item rest => stopsLE n item && stopsLEItems n rest

def stopsLEEntries (n : Nat) : EntryList → Bool
  | .nil => true
  | .cons k v rest => stopsLE n k && stopsLE n v && stopsLEEntries n rest
end

mutual
/-- Enclosure: every mapping or sequence in the tree that carries a range
bounds (with its stop) the stops of all ranges anywhere beneath it. -/
def encl : Node → Bool
  | .plain _ => true
  | .str _ _ => true
  | .seq l items =>
      (match l with
       | none => true
       | some r => stopsLEItems r.stop items) && enclItems items
  | .map l es =>
      (match l with
       | none => true
       | some r => stopsLEEntries r.stop es) && enclEntries es

def enclItems : NodeList → Bool
  | .nil => true
  | .cons item rest => encl item && enclItems rest

def enclEntries : EntryList → Bool
  | .nil => true
  | .cons k v rest => encl k && encl v && enclEntries rest
end

/-- A range that is either intersecting the change set or cleared. -/
def lineOK (changes : List LineRange) (l : Option LineRange) : Bool :=
  rangeHits l changes || l.isNone

mutual
/-- Formalization of the isolation-completeness claim as stated: after
isolation, every node's range — and, independently, every mapping key's —
either intersects the change set or is `None`, the only exception being
the subtree beneath a mapping key that intersects the change set.  In
particular the requirement recurses into every sequence item. -/
def allCleared (changes : List LineRange) : Node → Bool
  | .plain _ => true
  | .str _ l => lineOK changes l
  | .seq l items => lineOK changes l && allClearedItems changes items
  | .map l es => lineOK changes l && allClearedEntries changes es

def allClearedItems (changes : List LineRange) : NodeList → Bool
  | .nil => true
  | .cons item rest => allCleared changes item && allClearedItems changes rest

def allClearedEntries (changes : List LineRange) : EntryList → Bool
  | .nil => true
  | .cons k v rest =>
      (if rangeHits (getLines k) changes then true
       else lineOK changes (getLines k) && allCleared changes v) &&
      allClearedEntries changes rest
end

mutual
/-- What isolation actually establishes: like `allCleared`, but a
sequence item that does not intersect the change set is only required to
have its own range cleared — nothing is required of (or done to) the
nodes beneath it. -/
def isoClear (changes : List LineRange) : Node → Bool
  | .plain _ => true
  | .str _ l => lineOK changes l
  | .seq l items => lineOK changes l && isoClearItems changes items
  | .map l es => lineOK changes l && isoClearEntries changes es

def isoClearItems (changes : List LineRange) : NodeList → Bool
  | .nil => true
  | .cons item rest =>
      (if hasLinesAttr item then
        if rangeHits (getLines item) changes then isoClear changes item
        else (getLines item).isNone
       else true) && isoClearItems changes rest

def isoClearEntries (changes : List LineRange) : EntryList → Bool
  | .nil => true
  | .cons k v rest =>
      (if hasLinesAttr k then
        if rangeHits (getLines k) changes then true
        else (getLines k).isNone && isoClear changes v
       else isoClear changes v) && isoClearEntries changes rest
end

/-- A container with at least one child.  (Scalars are not containers.) -/
def hasContent : Node → Bool
  | .seq _ (.cons _ _) => true
  | .map _ (.cons _ _ _) => true
  | _ => false

mutual
/-- Frame relation: `frame a b` holds when `b` has exactly the structure
and scalar contents of `a`, and every node of `b` carries either the
range of the corresponding node of `a` or no range at all. -/
def frame : Node → Node → Bool
  | .plain v, .plain w => v == w
  | .str v l, .str w m => v == w && (m == l || m.isNone)
  | .seq l xs, .seq m ys => (m == l || m.isNone) && frameItems xs ys
  | .map l xs, .map m ys => (m == l || m.isNone) && frameEntries xs ys
  | _, _ => false

def frameItems : NodeList → NodeList → Bool
  | .nil, .nil => true
  | .cons a as, .cons b bs => frame a b && frameItems as bs
  | _, _ => false

def frameEntries : EntryList → EntryList → Bool
  | .nil, .nil => true
  | .cons k v es, .cons k2 v2 es2 => frame k k2 && frame v v2 && frameEntries es es2
  | _, _ => false
end

/-- Modelled from the spec's words, for comparison with the code: the
survival rule the spec states for mapping entries — "an entry survives
iff its key has a range, OR its value (after recursive pruning) still has
a range or still has content". -/
def specEntrySurvives (k v : Node) : Bool :=
  truthy (getLines k) || truthy (getLines (prune v)) || hasContent (prune v)

/-- Keys of an insertion-ordered dict, in order. -/
def dictKeys (m : List (String × List LineRange)) : List String :=
  m.map Prod.fst

/-- Python-dict construction starting from an existing dict (generalizes
`pyDict`, whose accumulator starts empty). -/
def pyDictFrom (acc : List (String × List LineRange))
    (l : List (String × List LineRange)) : List (String × List LineRange) :=
  l.foldl (fun m kv => dictInsert m kv.1 kv.2) acc

/-- Total number of line numbers stored in a collected-lines dict. -/
def sumLens (acc : List (String × List Nat)) : Nat :=
  (acc.map fun e => e.2.length).sum

/-- Added lines that the collection loop actually records: those of diff
entries whose `b_path` is present. -/
def includedAdded (diffs : List DiffEntry) : Nat :=
  (diffs.map fun d => if d.b_path.isSome then d.addedLines.length else 0).sum

theorem getLines_prune (t : Node) : getLines (prune t) = getLines t := by
  cases t <;> simp [prune, getLines]

mutual
theorem prune_prune : ∀ t : Node, prune (prune t) = prune t
  | .plain v => by simp [prune]
  | .str v l => by simp [prune]
  | .seq l items => by simp [prune, pruneItems_idem items]
  | .map l es => by simp [prune, pruneEntries_idem es]

theorem pruneItems_idem : ∀ xs : NodeList, pruneItems (pruneItems xs) = pruneItems xs
  | .nil => rfl
  | .cons a as => by
      by_cases h : truthy (getLines a) = true
      · simp [pruneItems, h, getLines_prune, prune_prune a, pruneItems_idem as]
      · simp [pruneItems, h, pruneItems_idem as]

theorem pruneEntries_idem : ∀ es : EntryList, pruneEntries (pruneEntries es) = pruneEntries es
  | .nil => rfl
  | .cons k v rest => by
      by_cases hk : truthy (getLines k) = true
      · simp [pruneEntries, hk, pruneEntries_idem rest]
      · by_cases hv : truthy (getLines v) = true
        · simp [pruneEntries, hk, hv, getLines_prune, prune_prune v,
            pruneEntries_idem rest]
        · simp [pruneEntries, hk, hv, pruneEntries_idem rest]
end

/-- Claim C7: pruning is idempotent — applying `prune` to an
already-pruned tree leaves the tree identical to the singly pruned one. -/
theorem prune_idempotent (t : Node) : prune (prune t) = prune t :=
  prune_prune t

theorem pruneEntries_append : ∀ xs ys : EntryList,
    pruneEntries (xs.append ys) = (pruneEntries xs).append (pruneEntries ys)
  | .nil, ys => rfl
  | .cons k v rest, ys => by
      by_cases hk : truthy (getLines k) = true
      · simp [EntryList.append, pruneEntries, hk, pruneEntries_append rest ys]
      · by_cases hv : truthy (getLines v) = true <;>
          simp [EntryList.append, pruneEntries, hk, hv, pruneEntries_append rest ys]

/-- Counterexample to claim C3 as stated: in this mapping the single
entry's key carries no range and its value carries no range, so the code
deletes the entry — even though the value, after recursive pruning, still
has content (its own inner entry survives on the strength of the inner
key's range), so the spec's rule says the entry should survive. -/
theorem mapping_prune_survival_cex :
    specEntrySurvives (.str "a" none)
        (.map none (.cons (.str "b" (some ⟨1, 2⟩)) (.plain "x") .nil)) = true ∧
    pruneEntries (.cons (.str "a" none)
        (.map none (.cons (.str "b" (some ⟨1, 2⟩)) (.plain "x") .nil)) .nil) = .nil :=
  ⟨rfl, rfl⟩

/-- Claim C3 (amended): the fate of a mapping entry under `prune` depends
only on its own key's and value's ranges, never on the value's remaining
content — an entry survives iff its key's range is truthy (in which case
both key and value are kept untouched) or, failing that, its value's
range is truthy (in which case the value is recursively pruned);
otherwise the entry is deleted, even when pruning the value would have
left content behind. -/
theorem mapping_prune_survival (pre post : EntryList) (k v : Node) :
    pruneEntries (pre.append (.cons k v post)) =
      if truthy (getLines k) then
        (pruneEntries pre).append (.cons k v (pruneEntries post))
      else if truthy (getLines v) then
        (pruneEntries pre).append (.cons k (prune v) (pruneEntries post))
      else (pruneEntries pre).append (pruneEntries post) := by
  rw [pruneEntries_append]
  by_cases hk : truthy (getLines k) = true
  · simp [pruneEntries, hk]
  · by_cases hv : truthy (getLines v) = true <;> simp [pruneEntries, hk, hv]

theorem hasLinesAttr_of_rangeHits {k : Node} {changes : List LineRange}
    (h : rangeHits (getLines k) changes = true) : hasLinesAttr k = true := by
  cases k <;> simp_all [getLines, hasLinesAttr, rangeHits]

theorem isolateEntries_append (changes : List LineRange) : ∀ xs ys : EntryList,
    isolateEntries changes (xs.append ys) =
      (isolateEntries changes xs).append (isolateEntries changes ys)
  | .nil, ys => rfl
  | .cons k v rest, ys => by
      by_cases ha : hasLinesAttr k = true
      · by_cases hh : rangeHits (getLines k) changes = true <;>
          simp [EntryList.append, isolateEntries, ha, hh,
            isolateEntries_append changes rest ys]
      · simp [EntryList.append, isolateEntries, ha,
          isolateEntries_append changes rest ys]

/-- Claim C1: key-change propagation.  If a mapping entry's key range
intersects the change ranges (and, as the parser guarantees, is
non-empty), isolation leaves the key/value pair exactly as it was —
nothing inside the value subtree is cleared or recursed into — and the
subsequent prune keeps the whole value subtree verbatim, regardless of
whether any line of the value itself appears in the change set. -/
theorem key_change_propagation (changes : List LineRange) (l : Option LineRange)
    (pre post : EntryList) (k v : Node)
    (hov : rangeHits (getLines k) changes = true)
    (hne : truthy (getLines k) = true) :
    (∃ (l2 : Option LineRange) (pre3 post3 : EntryList),
      isolate changes (.map l (pre.append (.cons k v post))) =
        .map l2 (pre3.append (.cons k v post3))) ∧
    (∃ (l2 : Option LineRange) (pre2 post2 : EntryList),
      prune (isolate changes (.map l (pre.append (.cons k v post)))) =
        .map l2 (pre2.append (.cons k v post2))) := by
  have ha : hasLinesAttr k = true := hasLinesAttr_of_rangeHits hov
  have hiso : isolateEntries changes (pre.append (.cons k v post)) =
      (isolateEntries changes pre).append (.cons k v (isolateEntries changes post)) := by
    rw [isolateEntries_append]
    simp [isolateEntries, ha, hov]
  constructor
  · exact ⟨if rangeHits l changes then l else none,
      isolateEntries changes pre, isolateEntries changes post, by
        simp [isolate, hiso]⟩
  · refine ⟨if rangeHits l changes then l else none,
      pruneEntries (isolateEntries changes pre),
      pruneEntries (isolateEntries changes post), ?_⟩
    simp [isolate, hiso, prune, pruneEntries_append, pruneEntries, hne]

/-- Witness for claim C1 at a concrete input: a two-entry mapping whose
first entry's key lies on a changed line while its multi-line value does
not. -/
theorem key_change_propagation_w :
    rangeHits (getLines (.str "k" (some ⟨1, 2⟩))) [⟨1, 2⟩] = true ∧
    truthy (getLines (.str "k" (some ⟨1, 2⟩))) = true ∧
    ((∃ (l2 : Option LineRange) (pre3 post3 : EntryList),
      isolate [⟨1, 2⟩] (.map (some ⟨1, 9⟩) (EntryList.append .nil
          (.cons (.str "k" (some ⟨1, 2⟩))
            (.seq (some ⟨2, 4⟩) (.cons (.str "deep" (some ⟨2, 3⟩)) .nil))
            (.cons (.str "other" (some ⟨5, 6⟩)) (.plain "1") .nil)))) =
        .map l2 (pre3.append (.cons (.str "k" (some ⟨1, 2⟩))
          (.seq (some ⟨2, 4⟩) (.cons (.str "deep" (some ⟨2, 3⟩)) .nil)) post3))) ∧
    (∃ (l2 : Option LineRange) (pre2 post2 : EntryList),
      prune (isolate [⟨1, 2⟩] (.map (some ⟨1, 9⟩) (EntryList.append .nil
          (.cons (.str "k" (some ⟨1, 2⟩))
            (.seq (some ⟨2, 4⟩) (.cons (.str "deep" (some ⟨2, 3⟩)) .nil))
            (.cons (.str "other" (some ⟨5, 6⟩)) (.plain "1") .nil))))) =
        .map l2 (pre2.append (.cons (.str "k" (some ⟨1, 2⟩))
          (.seq (some ⟨2, 4⟩) (.cons (.str "deep" (some ⟨2, 3⟩)) .nil)) post2)))) :=
  ⟨rfl, rfl, key_change_propagation [⟨1, 2⟩] (some ⟨1, 9⟩) .nil
    (.cons (.str "other" (some ⟨5, 6⟩)) (.plain "1") .nil)
    (.str "k" (some ⟨1, 2⟩))
    (.seq (some ⟨2, 4⟩) (.cons (.str "deep" (some ⟨2, 3⟩)) .nil)) rfl rfl⟩

theorem getLines_isolate (changes : List LineRange) (t : Node) :
    getLines (isolate changes t) =
      if rangeHits (getLines t) changes then getLines t else none := by
  cases t <;> simp [isolate, getLines, rangeHits]

theorem hasLinesAttr_isolate (changes : List LineRange) (t : Node) :
    hasLinesAttr (isolate changes t) = hasLinesAttr t := by
  cases t <;> simp [isolate, hasLinesAttr]

theorem getLines_setLines (t : Node) (l : Option LineRange) (ha : hasLinesAttr t = true) :
    getLines (setLines t l) = l := by
  cases t <;> simp_all [setLines, getLines, hasLinesAttr]

theorem hasLinesAttr_setLines (t : Node) (l : Option LineRange) :
    hasLinesAttr (setLines t l) = hasLinesAttr t := by
  cases t <;> simp [setLines, hasLinesAttr]

theorem rangeHits_none (changes : List LineRange) : rangeHits none changes = false :=
  rfl

theorem lineOK_of_ite (changes : List LineRange) (l : Option LineRange) :
    lineOK changes (if rangeHits l changes then l else none) = true := by
  by_cases h : rangeHits l changes = true
  · simp [lineOK, h]
  · simp [lineOK, h, rangeHits_none]

mutual
theorem isoClear_isolate (changes : List LineRange) :
    ∀ t : Node, isoClear changes (isolate changes t) = true
  | .plain v => rfl
  | .str v l => by simp [isolate, isoClear, lineOK_of_ite]
  | .seq l items => by
      simp [isolate, isoClear, lineOK_of_ite, isoClearItems_isolate changes items]
  | .map l es => by
      simp [isolate, isoClear, lineOK_of_ite, isoClearEntries_isolate changes es]

theorem isoClearItems_isolate (changes : List LineRange) :
    ∀ xs : NodeList, isoClearItems changes (isolateItems changes xs) = true
  | .nil => rfl
  | .cons item rest => by
      by_cases ha : hasLinesAttr item = true
      · by_cases hh : rangeHits (getLines item) changes = true
        · simp [isolateItems, isoClearItems, ha, hh, hasLinesAttr_isolate,
            getLines_isolate, isoClear_isolate changes item,
            isoClearItems_isolate changes rest]
        · simp [isolateItems, isoClearItems, ha, hh, hasLinesAttr_setLines,
            getLines_setLines item none ha, rangeHits_none,
            isoClearItems_isolate changes rest]
      · cases item with
        | plain v =>
            simp [isolateItems, isoClearItems, hasLinesAttr,
              isoClearItems_isolate changes rest]
        | str v l => simp [hasLinesAttr] at ha
        | seq l xs => simp [hasLinesAttr] at ha
        | map l es => simp [hasLinesAttr] at ha

theorem isoClearEntries_isolate (changes : List LineRange) :
    ∀ es : EntryList, isoClearEntries changes (isolateEntries changes es) = true
  | .nil => rfl
  | .cons k v rest => by
      by_cases ha : hasLinesAttr k = true
      · by_cases hh : rangeHits (getLines k) changes = true
        · simp [isolateEntries, isoClearEntries, ha, hh,
            isoClearEntries_isolate changes rest]
        · simp [isolateEntries, isoClearEntries, ha, hh, hasLinesAttr_setLines,
            getLines_setLines k none ha, rangeHits_none, isoClear_isolate changes v,
            isoClearEntries_isolate changes rest]
      · simp [isolateEntries, isoClearEntries, ha, isoClear_isolate changes v,
          isoClearEntries_isolate changes rest]
end

/-- Counterexample to claim C2 as stated: a sequence whose single item
(itself a sequence) does not intersect the change set.  `_isolate` clears
the item's own range but does not recurse beneath it, so the string nested
inside keeps its (non-intersecting) range even though it lies beneath no
mapping key at all, and the completeness predicate fails. -/
theorem isolation_completeness_cex :
    allCleared [⟨5, 6⟩] (isolate [⟨5, 6⟩]
      (.seq (some ⟨1, 2⟩)
        (.cons (.seq (some ⟨1, 2⟩) (.cons (.str "x" (some ⟨1, 2⟩)) .nil)) .nil))) =
      false := rfl

/-- Claim C2 (amended): after isolation every node visited by the
traversal has its range either intersecting the change set or cleared to
`None` — and, independently, so does every mapping key — where the
traversal covers the root, recurses through every mapping value whose key
does not intersect the change set, and recurses into exactly the sequence
items that intersect the change set; a sequence item that does not
intersect only has its own range cleared, and nodes beneath it (like
everything beneath an intersecting mapping key) are exempt. -/
theorem isolation_clearing (changes : List LineRange) (t : Node) :
    isoClear changes (isolate changes t) = true :=
  isoClear_isolate changes t

mutual
theorem frame_refl : ∀ t : Node, frame t t = true
  | .plain v => by simp [frame]
  | .str v l => by simp [frame]
  | .seq l xs => by simp [frame, frameItems_refl xs]
  | .map l es => by simp [frame, frameEntries_refl es]

theorem frameItems_refl : ∀ xs : NodeList, frameItems xs xs = true
  | .nil => rfl
  | .cons a as => by simp [frameItems, frame_refl a, frameItems_refl as]

theorem frameEntries_refl : ∀ es : EntryList, frameEntries es es = true
  | .nil => rfl
  | .cons k v rest => by
      simp [frameEntries, frame_refl k, frame_refl v, frameEntries_refl rest]
end

theorem frame_setLines_none (t : Node) : frame t (setLines t none) = true := by
  cases t <;> simp [setLines, frame, frameItems_refl, frameEntries_refl]

theorem frame_lines_ite (l : Option LineRange) (c : Bool) :
    ((if c then l else none) == l || (if c then l else none).isNone) = true := by
  cases c <;> simp

mutual
theorem frame_isolate (changes : List LineRange) :
    ∀ t : Node, frame t (isolate changes t) = true
  | .plain v => by simp [isolate, frame]
  | .str v l => by
      simp [isolate, frame]
      by_cases h : rangeHits l changes = true <;> simp [h]
  | .seq l xs => by
      simp only [isolate, frame]
      rw [frameItems_isolate changes xs]
      simp [frame_lines_ite l (rangeHits l changes)]
  | .map l es => by
      simp only [isolate, frame]
      rw [frameEntries_isolate changes es]
      simp [frame_lines_ite l (rangeHits l changes)]

theorem frameItems_isolate (changes : List LineRange) :
    ∀ xs : NodeList, frameItems xs (isolateItems changes xs) = true
  | .nil => rfl
  | .cons item rest => by
      by_cases ha : hasLinesAttr item = true
      · by_cases hh : rangeHits (getLines item) changes = true
        · simp [isolateItems, frameItems, ha, hh, frame_isolate changes item,
            frameItems_isolate changes rest]
        · simp [isolateItems, frameItems, ha, hh, frame_setLines_none,
            frameItems_isolate changes rest]
      · simp [isolateItems, frameItems, ha, frame_refl item,
          frameItems_isolate changes rest]

theorem frameEntries_isolate (changes : List LineRange) :
    ∀ es : EntryList, frameEntries es (isolateEntries changes es) = true
  | .nil => rfl
  | .cons k v rest => by
      by_cases ha : hasLinesAttr k = true
      · by_cases hh : rangeHits (getLines k) changes = true
        · simp [isolateEntries, frameEntries, ha, hh, frame_refl,
            frameEntries_isolate changes rest]
        · simp [isolateEntries, frameEntries, ha, hh, frame_setLines_none,
            frame_isolate changes v, frameEntries_isolate changes rest]
      · simp [isolateEntries, frameEntries, ha, frame_refl k,
          frame_isolate changes v, frameEntries_isolate changes rest]
end

/-- Claim C9: isolation is marker-only.  For every tree and change set,
the isolated tree stands in the frame relation to the original: identical
constructors, scalar contents, entry order and item order throughout, and
every node's range is either exactly its original range or `None` —
isolation never shrinks, widens, or invents a range. -/
theorem isolation_is_marker_only (changes : List LineRange) (t : Node) :
    frame t (isolate changes t) = true :=
  frame_isolate changes t

theorem widen_stop_le (cur : LineRange) (l : Option LineRange) :
    cur.stop ≤ (widen cur l).stop := by
  cases l with
  | none => exact Nat.le_refl _
  | some r =>
      simp only [widen]
      split
      next h => exact Nat.le_of_lt h
      next h => exact Nat.le_refl _

theorem widen_stop_ge (cur : LineRange) (r : LineRange) :
    r.stop ≤ (widen cur (some r)).stop := by
  simp only [widen]
  split
  next h => exact Nat.le_refl _
  next h => omega

mutual
theorem stopsLE_fromParser : ∀ t : Node, FromParser t →
    ∀ n : Nat, stopLE n (getLines t) = true → stopsLE n t = true
  | .plain _, _, _, _ => rfl
  | .str v l, _, n, hn => by simpa [stopsLE, getLines] using hn
  | .seq l items, h, n, hn => by
      cases h with
      | seq init items hitems =>
          simp only [getLines, stopLE, decide_eq_true_eq] at hn
          simp only [stopsLE, Bool.and_eq_true]
          exact ⟨by simp [stopLE, hn], stopsLEItems_bubble items hitems init n hn⟩
  | .map l es, h, n, hn => by
      cases h with
      | map init es hes =>
          simp only [getLines, stopLE, decide_eq_true_eq] at hn
          simp only [stopsLE, Bool.and_eq_true]
          exact ⟨by simp [stopLE, hn], stopsLEEntries_bubble es hes init n hn⟩

theorem stopsLEItems_bubble : ∀ xs : NodeList, FromParserItems xs →
    ∀ (init : LineRange) (n : Nat), (bubbleItems init xs).stop ≤ n →
    stopsLEItems n xs = true
  | .nil, _, _, _, _ => rfl
  | .cons item rest, h, init, n, hle => by
      cases h with
      | cons hitem hrest =>
          have hw : (bubbleItems init rest).stop ≤ n :=
            le_trans (widen_stop_le (bubbleItems init rest) (getLines item))
              (by simpa [bubbleItems] using hle)
          have hself : stopLE n (getLines item) = true := by
            cases hgl : getLines item with
            | none => rfl
            | some r =>
                have := widen_stop_ge (bubbleItems init rest) r
                simp only [bubbleItems, hgl] at hle
                simp only [stopLE, decide_eq_true_eq]
                omega
          simp only [stopsLEItems, Bool.and_eq_true]
          exact ⟨stopsLE_fromParser item hitem n hself,
            stopsLEItems_bubble rest hrest init n hw⟩

theorem stopsLEEntries_bubble : ∀ es : EntryList, FromParserEntries es →
    ∀ (init : LineRange) (n : Nat), (bubbleEntries init es).stop ≤ n →
    stopsLEEntries n es = true
  | .nil, _, _, _, _ => rfl
  | .cons k v rest, h, init, n, hle => by
      cases h with
      | cons hk hv hrest =>
          have hstep : (bubbleEntries init (.cons k v rest)).stop =
              (widen (widen (bubbleEntries init rest) (getLines k)) (getLines v)).stop :=
            rfl
          have h1 : (widen (bubbleEntries init rest) (getLines k)).stop ≤ n :=
            le_trans (widen_stop_le _ (getLines v)) (hstep ▸ hle)
          have h0 : (bubbleEntries init rest).stop ≤ n :=
            le_trans (widen_stop_le _ (getLines k)) h1
          have hkstop : stopLE n (getLines k) = true := by
            cases hgl : getLines k with
            | none => rfl
            | some r =>
                have := widen_stop_ge (bubbleEntries init rest) r
                simp only [hgl] at h1
                simp only [stopLE, decide_eq_true_eq]
                omega
          have hvstop : stopLE n (getLines v) = true := by
            cases hgl : getLines v with
            | none => rfl
            | some r =>
                have := widen_stop_ge (widen (bubbleEntries init rest) (getLines k)) r
                rw [hstep, hgl] at hle
                simp only [stopLE, decide_eq_true_eq]
                omega
          simp only [stopsLEEntries, Bool.and_eq_true]
          exact ⟨⟨stopsLE_fromParser k hk n hkstop,
            stopsLE_fromParser v hv n hvstop⟩,
            stopsLEEntries_bubble rest hrest init n h0⟩
end

mutual
theorem encl_fromParser : ∀ t : Node, FromParser t → encl t = true
  | .plain _, _ => rfl
  | .str _ _, _ => rfl
  | .seq l items, h => by
      cases h with
      | seq init items hitems =>
          simp only [encl, Bool.and_eq_true]
          exact ⟨stopsLEItems_bubble items hitems init _ (Nat.le_refl _),
            enclItems_fromParser items hitems⟩
  | .map l es, h => by
      cases h with
      | map init es hes =>
          simp only [encl, Bool.and_eq_true]
          exact ⟨stopsLEEntries_bubble es hes init _ (Nat.le_refl _),
            enclEntries_fromParser es hes⟩

theorem enclItems_fromParser : ∀ xs : NodeList, FromParserItems xs → enclItems xs = true
  | .nil, _ => rfl
  | .cons item rest, h => by
      cases h with
      | cons hitem hrest =>
          simp only [enclItems, Bool.and_eq_true]
          exact ⟨encl_fromParser item hitem, enclItems_fromParser rest hrest⟩

theorem enclEntries_fromParser : ∀ es : EntryList, FromParserEntries es → enclEntries es = true
  | .nil, _ => rfl
  | .cons k v rest, h => by
      cases h with
      | cons hk hv hrest =>
          simp only [enclEntries, Bool.and_eq_true]
          exact ⟨⟨encl_fromParser k hk, encl_fromParser v hv⟩,
            enclEntries_fromParser rest hrest⟩
end

/-- Claim C6: range-bubbling enclosure.  Every tree built by the
annotated loader — where each mapping or sequence carries its composer
range widened by `construct_annotated_map` / `construct_annotated_seq`
over all of its keys and values/items — satisfies enclosure: each
mapping's and each sequence's range stop bounds the stop of every
annotated node anywhere beneath it (its direct keys, values and items
included). -/
theorem range_bubbling_encloses (t : Node) (h : FromParser t) : encl t = true :=
  encl_fromParser t h

/-- Witness for claim C6 at a concrete input: a two-entry mapping whose
second value (a sequence with a late-stopping item) pushes the bubbled
stop of both containers past their composer ranges. -/
theorem range_bubbling_encloses_w :
    encl (.map (some (bubbleEntries ⟨1, 2⟩
      (.cons (.str "foo" (some ⟨1, 2⟩))
        (.seq (some (bubbleItems ⟨2, 3⟩ (.cons (.str "long" (some ⟨2, 7⟩)) .nil)))
          (.cons (.str "long" (some ⟨2, 7⟩)) .nil))
        .nil)))
      (.cons (.str "foo" (some ⟨1, 2⟩))
        (.seq (some (bubbleItems ⟨2, 3⟩ (.cons (.str "long" (some ⟨2, 7⟩)) .nil)))
          (.cons (.str "long" (some ⟨2, 7⟩)) .nil))
        .nil)) = true :=
  range_bubbling_encloses _
    (.map ⟨1, 2⟩ _
      (.cons (.str "foo" ⟨1, 2⟩)
        (.seq ⟨2, 3⟩ _ (.cons (.str "long" ⟨2, 7⟩) .nil))
        .nil))

theorem linesOf_cons (r : LineRange) (rs : List LineRange) :
    linesOf (r :: rs) = List.range' r.start (r.stop - r.start) ++ linesOf rs := by
  simp [linesOf]

theorem linesOf_rangeifyGo : ∀ (xs : List Nat) (s l : Nat),
    List.Sorted (· < ·) xs → (∀ x ∈ xs, l < x) → s ≤ l →
    linesOf (rangeifyGo (some (s, l)) xs) = List.range' s (l + 1 - s) ++ xs
  | [], s, l, _, _, hsl => by
      simp [rangeifyGo, linesOf]
  | item :: rest, s, l, hs, hgt, hsl => by
      have hlitem : l < item := hgt item (List.mem_cons_self _ _)
      have hrs : List.Sorted (· < ·) rest := (List.sorted_cons.mp hs).2
      have hrg : ∀ x ∈ rest, item < x := (List.sorted_cons.mp hs).1
      by_cases he : l + 1 = item
      · rw [show rangeifyGo (some (s, l)) (item :: rest) =
            rangeifyGo (some (s, item)) rest by simp [rangeifyGo, he]]
        rw [linesOf_rangeifyGo rest s item hrs hrg (le_trans hsl (Nat.le_of_lt hlitem))]
        have hiter : item + 1 - s = (l + 1 - s) + 1 := by omega
        rw [hiter, List.range'_1_concat]
        have : s + (l + 1 - s) = item := by omega
        rw [this, List.append_assoc, List.singleton_append]
      · rw [show rangeifyGo (some (s, l)) (item :: rest) =
            LineRange.mk s (l + 1) :: rangeifyGo (some (item, item)) rest by
            simp [rangeifyGo, he]]
        rw [linesOf_cons, linesOf_rangeifyGo rest item item hrs hrg (Nat.le_refl _)]
        have h1 : item + 1 - item = 1 := by omega
        have h2 : (LineRange.mk s (l + 1)).stop - (LineRange.mk s (l + 1)).start
            = l + 1 - s := rfl
        rw [h1, List.range'_one]
        simp

theorem linesOf_rangeify : ∀ xs : List Nat, List.Sorted (· < ·) xs →
    linesOf (rangeify xs) = xs
  | [], _ => rfl
  | x :: rest, hs => by
      rw [show rangeify (x :: rest) = rangeifyGo (some (x, x)) rest by
        simp [rangeify, rangeifyGo]]
      rw [linesOf_rangeifyGo rest x x (List.sorted_cons.mp hs).2
        (List.sorted_cons.mp hs).1 (Nat.le_refl _)]
      have : x + 1 - x = 1 := by omega
      rw [this, List.range'_one]
      rfl

theorem rangeifyGo_start_ge : ∀ (xs : List Nat) (s l : Nat),
    List.Sorted (· < ·) xs → (∀ x ∈ xs, l < x) → s ≤ l →
    ∀ r ∈ rangeifyGo (some (s, l)) xs, s ≤ r.start
  | [], s, l, _, _, _, r, hr => by
      simp [rangeifyGo] at hr
      simp [hr]
  | item :: rest, s, l, hs, hgt, hsl, r, hr => by
      have hlitem : l < item := hgt item (List.mem_cons_self _ _)
      have hrs : List.Sorted (· < ·) rest := (List.sorted_cons.mp hs).2
      have hrg : ∀ x ∈ rest, item < x := (List.sorted_cons.mp hs).1
      by_cases he : l + 1 = item
      · rw [show rangeifyGo (some (s, l)) (item :: rest) =
            rangeifyGo (some (s, item)) rest by simp [rangeifyGo, he]] at hr
        exact rangeifyGo_start_ge rest s item hrs hrg (by omega) r hr
      · rw [show rangeifyGo (some (s, l)) (item :: rest) =
            LineRange.mk s (l + 1) :: rangeifyGo (some (item, item)) rest by
            simp [rangeifyGo, he]] at hr
        rcases List.mem_cons.mp hr with rfl | hr2
        · exact Nat.le_refl _
        · have := rangeifyGo_start_ge rest item item hrs hrg (Nat.le_refl _) r hr2
          omega

theorem rangeifyGo_nonempty : ∀ (xs : List Nat) (s l : Nat),
    List.Sorted (· < ·) xs → (∀ x ∈ xs, l < x) → s ≤ l →
    ∀ r ∈ rangeifyGo (some (s, l)) xs, r.start < r.stop
  | [], s, l, _, _, hsl, r, hr => by
      simp [rangeifyGo] at hr
      simp [hr]
      omega
  | item :: rest, s, l, hs, hgt, hsl, r, hr => by
      have hlitem : l < item := hgt item (List.mem_cons_self _ _)
      have hrs : List.Sorted (· < ·) rest := (List.sorted_cons.mp hs).2
      have hrg : ∀ x ∈ rest, item < x := (List.sorted_cons.mp hs).1
      by_cases he : l + 1 = item
      · rw [show rangeifyGo (some (s, l)) (item :: rest) =
            rangeifyGo (some (s, item)) rest by simp [rangeifyGo, he]] at hr
        exact rangeifyGo_nonempty rest s item hrs hrg (by omega) r hr
      · rw [show rangeifyGo (some (s, l)) (item :: rest) =
            LineRange.mk s (l + 1) :: rangeifyGo (some (item, item)) rest by
            simp [rangeifyGo, he]] at hr
        rcases List.mem_cons.mp hr with rfl | hr2
        · show s < l + 1
          omega
        · exact rangeifyGo_nonempty rest item item hrs hrg (Nat.le_refl _) r hr2

theorem rangeifyGo_pairwise : ∀ (xs : List Nat) (s l : Nat),
    List.Sorted (· < ·) xs → (∀ x ∈ xs, l < x) → s ≤ l →
    List.Pairwise (fun a b : LineRange => a.stop < b.start)
      (rangeifyGo (some (s, l)) xs)
  | [], s, l, _, _, _ => by
      simp [rangeifyGo]
  | item :: rest, s, l, hs, hgt, hsl => by
      have hlitem : l < item := hgt item (List.mem_cons_self _ _)
      have hrs : List.Sorted (· < ·) rest := (List.sorted_cons.mp hs).2
      have hrg : ∀ x ∈ rest, item < x := (List.sorted_cons.mp hs).1
      by_cases he : l + 1 = item
      · rw [show rangeifyGo (some (s, l)) (item :: rest) =
            rangeifyGo (some (s, item)) rest by simp [rangeifyGo, he]]
        exact rangeifyGo_pairwise rest s item hrs hrg (by omega)
      · rw [show rangeifyGo (some (s, l)) (item :: rest) =
            LineRange.mk s (l + 1) :: rangeifyGo (some (item, item)) rest by
            simp [rangeifyGo, he]]
        refine List.Pairwise.cons ?_ (rangeifyGo_pairwise rest item item hrs hrg (Nat.le_refl _))
        intro r hr
        have := rangeifyGo_start_ge rest item item hrs hrg (Nat.le_refl _) r hr
        show l + 1 < r.start
        omega

theorem rangeify_pairwise (xs : List Nat) (hs : List.Sorted (· < ·) xs) :
    List.Pairwise (fun a b : LineRange => a.stop < b.start) (rangeify xs) := by
  cases xs with
  | nil => simp [rangeify, rangeifyGo]
  | cons x rest =>
      rw [show rangeify (x :: rest) = rangeifyGo (some (x, x)) rest by
        simp [rangeify, rangeifyGo]]
      exact rangeifyGo_pairwise rest x x (List.sorted_cons.mp hs).2
        (List.sorted_cons.mp hs).1 (Nat.le_refl _)

theorem mem_linesOf {n : Nat} {rs : List LineRange} :
    n ∈ linesOf rs ↔ ∃ r, r ∈ rs ∧ memRange n r := by
  simp only [linesOf, List.mem_flatMap, List.mem_range'_1, memRange]
  constructor
  · rintro ⟨r, hr, h1, h2⟩
    exact ⟨r, hr, h1, by omega⟩
  · rintro ⟨r, hr, h1, h2⟩
    exact ⟨r, hr, h1, by omega⟩

theorem pairwise_mem_cases {α : Type} {R : α → α → Prop} :
    ∀ {l : List α}, List.Pairwise R l → ∀ {a b : α}, a ∈ l → b ∈ l →
      a = b ∨ R a b ∨ R b a := by
  intro l hl
  induction hl with
  | nil => intro a b ha _; exact absurd ha (List.not_mem_nil a)
  | cons hhead htail ih =>
      intro a b ha hb
      rcases List.mem_cons.mp ha with rfl | ha2
      · rcases List.mem_cons.mp hb with rfl | hb2
        · exact Or.inl rfl
        · exact Or.inr (Or.inl (hhead _ hb2))
      · rcases List.mem_cons.mp hb with rfl | hb2
        · exact Or.inr (Or.inr (hhead _ ha2))
        · exact ih ha2 hb2

theorem rangeify_unique_range {xs : List Nat} (hs : List.Sorted (· < ·) xs)
    {n : Nat} {r1 r2 : LineRange} (h1 : r1 ∈ rangeify xs) (h2 : r2 ∈ rangeify xs)
    (hm1 : memRange n r1) (hm2 : memRange n r2) : r1 = r2 := by
  rcases pairwise_mem_cases (rangeify_pairwise xs hs) h1 h2 with h | h | h
  · exact h
  · simp only [memRange] at hm1 hm2
    omega
  · simp only [memRange] at hm1 hm2
    omega

/-- Claim C4: coalescing correctness.  For every strictly sorted list of
added line numbers (added lines of one file are pairwise distinct), the
coalesced output covers each input line number by exactly one range, no
two output ranges overlap or are even adjacent (each range's stop is
strictly below the next range's start), and re-running the coalescing
step on the line numbers of its own output reproduces the output
exactly. -/
theorem rangeify_correct (xs : List Nat) (hs : List.Sorted (· < ·) xs) :
    (∀ n : Nat, n ∈ xs ↔ ∃! r : LineRange, r ∈ rangeify xs ∧ memRange n r) ∧
    List.Pairwise (fun a b : LineRange => a.stop < b.start) (rangeify xs) ∧
    rangeify (linesOf (rangeify xs)) = rangeify xs := by
  refine ⟨?_, rangeify_pairwise xs hs, by rw [linesOf_rangeify xs hs]⟩
  intro n
  constructor
  · intro hn
    have hmem : n ∈ linesOf (rangeify xs) := by
      rw [linesOf_rangeify xs hs]
      exact hn
    rcases mem_linesOf.mp hmem with ⟨r, hr, hmr⟩
    exact ⟨r, ⟨hr, hmr⟩, fun r2 h2 =>
      rangeify_unique_range hs h2.1 hr h2.2 hmr⟩
  · rintro ⟨r, ⟨hr, hmr⟩, -⟩
    have hmem : n ∈ linesOf (rangeify xs) := mem_linesOf.mpr ⟨r, hr, hmr⟩
    rwa [linesOf_rangeify xs hs] at hmem

/-- Witness for claim C4 at the concrete input `[1, 2, 5]`, whose
coalescing yields `[range(1, 3), range(5, 6)]`. -/
theorem rangeify_correct_w :
    List.Sorted (· < ·) [1, 2, 5] ∧
    ((∀ n : Nat, n ∈ [1, 2, 5] ↔
        ∃! r : LineRange, r ∈ rangeify [1, 2, 5] ∧ memRange n r) ∧
     List.Pairwise (fun a b : LineRange => a.stop < b.start) (rangeify [1, 2, 5]) ∧
     rangeify (linesOf (rangeify [1, 2, 5])) = rangeify [1, 2, 5]) :=
  ⟨by decide, rangeify_correct [1, 2, 5] (by decide)⟩

/-- Claim C5: merge-base failure.  When both a target ref and a head ref
are given and the repo's merge-base computation yields no commit (orphan
histories), `get_added_lines` fails with the merge-base error — it is
propagated to the caller, and no `None` or empty change set is returned
in its place. -/
theorem merge_base_failure (repo : GitRepo) (tr hr : String)
    (paths : Option (List String))
    (h : (repo.mergeBase (repo.commit tr) (repo.commit hr)).find?
      (fun b => b.isSome) = none) :
    get_added_lines repo (some tr) (some hr) paths = .error .mergeBaseNotFound ∧
    ∀ m, get_added_lines repo (some tr) (some hr) paths ≠ .ok m := by
  have hrb : resolveBase repo (some tr) (some hr) = .error .mergeBaseNotFound := by
    simp [resolveBase, h]
  constructor
  · simp [get_added_lines, hrb]
  · intro m
    simp [get_added_lines, hrb]

/-- Witness for claim C5 on a repo whose merge-base list is empty. -/
theorem merge_base_failure_w :
    ((GitRepo.mk (fun _ => 0) 0 (fun _ => []) (fun _ _ => [])
        (fun _ _ _ => [])).mergeBase
      ((GitRepo.mk (fun _ => 0) 0 (fun _ => []) (fun _ _ => [])
        (fun _ _ _ => [])).commit "base")
      ((GitRepo.mk (fun _ => 0) 0 (fun _ => []) (fun _ _ => [])
        (fun _ _ _ => [])).commit "orphan")).find? (fun b => b.isSome) = none ∧
    (get_added_lines (GitRepo.mk (fun _ => 0) 0 (fun _ => []) (fun _ _ => [])
        (fun _ _ _ => [])) (some "base") (some "orphan") none =
      .error .mergeBaseNotFound ∧
    ∀ m, get_added_lines (GitRepo.mk (fun _ => 0) 0 (fun _ => []) (fun _ _ => [])
        (fun _ _ _ => [])) (some "base") (some "orphan") none ≠ .ok m) :=
  ⟨rfl, merge_base_failure _ "base" "orphan" none rfl⟩

theorem sumLens_addLine : ∀ (acc : List (String × List Nat)) (p : String) (n : Nat),
    sumLens (addLine acc p n) = sumLens acc + 1
  | [], p, n => by simp [addLine, sumLens]
  | (q, ns) :: rest, p, n => by
      by_cases h : q = p
      · simp [addLine, h, sumLens]
        omega
      · simp [addLine, h, sumLens]
        have := sumLens_addLine rest p n
        simp [sumLens] at this
        omega

theorem sumLens_foldl_addLine : ∀ (pns : List (String × Nat)) (acc : List (String × List Nat)),
    sumLens (pns.foldl (fun a pn => addLine a pn.1 pn.2) acc) = sumLens acc + pns.length
  | [], acc => by simp
  | pn :: rest, acc => by
      simp only [List.foldl_cons, List.length_cons]
      rw [sumLens_foldl_addLine rest _, sumLens_addLine]
      omega

theorem sumLens_collect_foldl : ∀ (diffs : List DiffEntry) (acc : List (String × List Nat)),
    sumLens (diffs.foldl
      (fun acc d =>
        if d.b_path.isSome then
          d.addedLines.foldl (fun a pn => addLine a pn.1 pn.2) acc
        else acc) acc) = sumLens acc + includedAdded diffs
  | [], acc => by simp [includedAdded]
  | d :: rest, acc => by
      simp only [List.foldl_cons]
      by_cases h : d.b_path.isSome = true
      · rw [if_pos h, sumLens_collect_foldl rest _, sumLens_foldl_addLine]
        simp [includedAdded, h]
        omega
      · rw [if_neg h, sumLens_collect_foldl rest _]
        simp [includedAdded, h]

theorem addLine_entries_ne : ∀ (acc : List (String × List Nat)) (p : String) (n : Nat),
    (∀ e ∈ acc, e.2 ≠ []) → ∀ e ∈ addLine acc p n, e.2 ≠ []
  | [], p, n, _, e, he => by
      simp [addLine] at he
      simp [he]
  | (q, ns) :: rest, p, n, hacc, e, he => by
      by_cases h : q = p
      · simp [addLine, h] at he
        rcases he with rfl | he2
        · simp
        · exact hacc e (List.mem_cons_of_mem _ he2)
      · simp only [addLine, if_neg h] at he
        rcases List.mem_cons.mp he with rfl | he2
        · exact hacc _ (List.mem_cons_self _ _)
        · exact addLine_entries_ne rest p n
            (fun e2 h2 => hacc e2 (List.mem_cons_of_mem _ h2)) e he2

theorem foldl_addLine_entries_ne :
    ∀ (pns : List (String × Nat)) (acc : List (String × List Nat)),
    (∀ e ∈ acc, e.2 ≠ []) →
    ∀ e ∈ pns.foldl (fun a pn => addLine a pn.1 pn.2) acc, e.2 ≠ []
  | [], acc, hacc => hacc
  | pn :: rest, acc, hacc => by
      simp only [List.foldl_cons]
      exact foldl_addLine_entries_ne rest _ (addLine_entries_ne acc pn.1 pn.2 hacc)

theorem collect_foldl_entries_ne : ∀ (diffs : List DiffEntry) (acc : List (String × List Nat)),
    (∀ e ∈ acc, e.2 ≠ []) →
    ∀ e ∈ diffs.foldl
      (fun acc d =>
        if d.b_path.isSome then
          d.addedLines.foldl (fun a pn => addLine a pn.1 pn.2) acc
        else acc) acc, e.2 ≠ []
  | [], acc, hacc => hacc
  | d :: rest, acc, hacc => by
      simp only [List.foldl_cons]
      by_cases h : d.b_path.isSome = true
      · rw [if_pos h]
        exact collect_foldl_entries_ne rest _ (foldl_addLine_entries_ne _ acc hacc)
      · rw [if_neg h]
        exact collect_foldl_entries_ne rest acc hacc

theorem eq_nil_iff_sumLens (acc : List (String × List Nat))
    (h : ∀ e ∈ acc, e.2 ≠ []) : acc = [] ↔ sumLens acc = 0 := by
  cases acc with
  | nil => simp [sumLens]
  | cons e rest =>
      simp only [sumLens, List.map_cons, List.sum_cons]
      have : e.2 ≠ [] := h e (List.mem_cons_self _ _)
      have : 0 < e.2.length := List.length_pos.mpr this
      constructor
      · intro he
        cases he
      · intro he
        omega

theorem includedAdded_eq_totalAdded : ∀ diffs : List DiffEntry,
    (∀ d ∈ diffs, d.b_path = none → d.addedLines = []) →
    includedAdded diffs = totalAdded diffs
  | [], _ => rfl
  | d :: rest, h => by
      simp only [includedAdded, totalAdded, List.map_cons, List.sum_cons]
      have hrest : includedAdded rest = totalAdded rest :=
        includedAdded_eq_totalAdded rest (fun d2 h2 => h d2 (List.mem_cons_of_mem _ h2))
      simp only [includedAdded, totalAdded] at hrest
      rw [hrest]
      cases hb : d.b_path with
      | some p => simp
      | none =>
          have : d.addedLines = [] := h d (List.mem_cons_self _ _) hb
          simp [this]

theorem collectLines_empty_iff (diffs : List DiffEntry)
    (hdel : ∀ d ∈ diffs, d.b_path = none → d.addedLines = []) :
    collectLines diffs = [] ↔ totalAdded diffs = 0 := by
  have h1 : sumLens (collectLines diffs) = includedAdded diffs := by
    have := sumLens_collect_foldl diffs []
    simpa [collectLines, sumLens] using this
  have h2 : ∀ e ∈ collectLines diffs, e.2 ≠ [] := by
    have := collect_foldl_entries_ne diffs [] (by simp)
    simpa [collectLines] using this
  rw [eq_nil_iff_sumLens _ h2, h1, includedAdded_eq_totalAdded diffs hdel]

/-- Claim C8: the None-means-nothing-changed convention.  Whenever
`get_added_lines` does not fail, it returns the processed diff result,
and that result is `None` exactly when the diff contains zero added lines
in total; as soon as one added line exists, a mapping is returned.  (Diff
entries without a `b_path` are deletions and carry no added lines.) -/
theorem none_iff_nothing_added (repo : GitRepo) (tr hr : Option String)
    (paths : Option (List String)) (base : Nat) (head : Option Nat)
    (hres : resolveBase repo tr hr = .ok (base, head))
    (hdel : ∀ d ∈ repo.diff base head paths, d.b_path = none → d.addedLines = []) :
    get_added_lines repo tr hr paths =
      .ok (processDiffs (repo.diff base head paths) paths) ∧
    (processDiffs (repo.diff base head paths) paths = none ↔
      totalAdded (repo.diff base head paths) = 0) := by
  refine ⟨by simp [get_added_lines, hres], ?_⟩
  rw [← collectLines_empty_iff _ hdel]
  unfold processDiffs
  by_cases he : collectLines (repo.diff base head paths) = []
  · simp [he]
  · simp [he, List.isEmpty_iff]

/-- Witness for claim C8 on a repo whose diff adds a single line. -/
theorem none_iff_nothing_added_w :
    resolveBase (GitRepo.mk (fun _ => 0) 0 (fun _ => []) (fun _ _ => [])
        (fun _ _ _ => [DiffEntry.mk (some "f") [("f", 1)]])) none none =
      .ok (0, none) ∧
    (∀ d ∈ (GitRepo.mk (fun _ => 0) 0 (fun _ => []) (fun _ _ => [])
        (fun _ _ _ => [DiffEntry.mk (some "f") [("f", 1)]])).diff 0 none none,
      d.b_path = none → d.addedLines = []) ∧
    (get_added_lines (GitRepo.mk (fun _ => 0) 0 (fun _ => []) (fun _ _ => [])
        (fun _ _ _ => [DiffEntry.mk (some "f") [("f", 1)]])) none none none =
      .ok (processDiffs ((GitRepo.mk (fun _ => 0) 0 (fun _ => []) (fun _ _ => [])
        (fun _ _ _ => [DiffEntry.mk (some "f") [("f", 1)]])).diff 0 none none) none) ∧
    (processDiffs ((GitRepo.mk (fun _ => 0) 0 (fun _ => []) (fun _ _ => [])
        (fun _ _ _ => [DiffEntry.mk (some "f") [("f", 1)]])).diff 0 none none) none =
        none ↔
      totalAdded ((GitRepo.mk (fun _ => 0) 0 (fun _ => []) (fun _ _ => [])
        (fun _ _ _ => [DiffEntry.mk (some "f") [("f", 1)]])).diff 0 none none) = 0)) :=
  ⟨rfl, by
    intro d hd hb
    rw [List.mem_singleton] at hd
    subst hd
    simp at hb,
   none_iff_nothing_added _ none none none 0 none rfl (by
    intro d hd hb
    rw [List.mem_singleton] at hd
    subst hd
    simp at hb)⟩

theorem mem_dictInsert : ∀ (m : List (String × List LineRange)) (k : String)
    (v : List LineRange) (e : String × List LineRange),
    e ∈ dictInsert m k v → e = (k, v) ∨ e ∈ m
  | [], k, v, e, he => by
      simp [dictInsert] at he
      exact Or.inl he
  | (q, w) :: rest, k, v, e, he => by
      by_cases h : q = k
      · subst h
        simp only [dictInsert, if_pos rfl] at he
        rcases List.mem_cons.mp he with rfl | he2
        · exact Or.inl rfl
        · exact Or.inr (List.mem_cons_of_mem _ he2)
      · simp only [dictInsert, if_neg h] at he
        rcases List.mem_cons.mp he with rfl | he2
        · exact Or.inr (List.mem_cons_self _ _)
        · rcases mem_dictInsert rest k v e he2 with h2 | h2
          · exact Or.inl h2
          · exact Or.inr (List.mem_cons_of_mem _ h2)

theorem self_mem_dictInsert : ∀ (m : List (String × List LineRange)) (k : String)
    (v : List LineRange), (k, v) ∈ dictInsert m k v
  | [], k, v => by simp [dictInsert]
  | (q, w) :: rest, k, v => by
      by_cases h : q = k
      · subst h
        simp [dictInsert]
      · simp only [dictInsert, if_neg h]
        exact List.mem_cons_of_mem _ (self_mem_dictInsert rest k v)

theorem dictKeys_dictInsert : ∀ (m : List (String × List LineRange)) (k : String)
    (v : List LineRange),
    dictKeys (dictInsert m k v) =
      if k ∈ dictKeys m then dictKeys m else dictKeys m ++ [k]
  | [], k, v => by simp [dictInsert, dictKeys]
  | (q, w) :: rest, k, v => by
      by_cases h : q = k
      · subst h
        simp [dictInsert, dictKeys]
      · have hqk : ¬(k = q) := fun hk => h hk.symm
        simp only [dictInsert, if_neg h, dictKeys, List.map_cons]
        rw [show (dictInsert rest k v).map Prod.fst = dictKeys (dictInsert rest k v) from rfl,
          dictKeys_dictInsert rest k v]
        by_cases hk : k ∈ List.map Prod.fst rest
        · simp [dictKeys, hk, hqk]
        · simp [dictKeys, hk, hqk]

theorem nodup_dictKeys_dictInsert (m : List (String × List LineRange)) (k : String)
    (v : List LineRange) (h : (dictKeys m).Nodup) :
    (dictKeys (dictInsert m k v)).Nodup := by
  rw [dictKeys_dictInsert]
  by_cases hk : k ∈ dictKeys m
  · simp [hk, h]
  · simp [hk, List.nodup_append, h]

theorem mem_dictInsert_of_mem (f : String → List LineRange) :
    ∀ (m : List (String × List LineRange)) (k : String) (q : String),
    (q, f q) ∈ m → (q, f q) ∈ dictInsert m k (f k)
  | [], k, q, hq => absurd hq (List.not_mem_nil _)
  | (a, b) :: rest, k, q, hq => by
      by_cases h : a = k
      · subst h
        simp only [dictInsert, if_pos rfl]
        rcases List.mem_cons.mp hq with heq | hq2
        · have h1 : q = a := congrArg Prod.fst heq
          subst h1
          exact List.mem_cons_self _ _
        · exact List.mem_cons_of_mem _ hq2
      · simp only [dictInsert, if_neg h]
        rcases List.mem_cons.mp hq with heq | hq2
        · rw [heq]
          exact List.mem_cons_self _ _
        · exact List.mem_cons_of_mem _ (mem_dictInsert_of_mem f rest k q hq2)

theorem pyDictFrom_spec (f : String → List LineRange) (ps : List String) :
    ∀ (ks : List String) (acc : List (String × List LineRange)),
    (∀ e ∈ acc, e.2 = f e.1 ∧ e.1 ∈ ps) → (∀ k ∈ ks, k ∈ ps) →
    (dictKeys acc).Nodup →
    (∀ e ∈ pyDictFrom acc (ks.map fun p => (p, f p)), e.2 = f e.1 ∧ e.1 ∈ ps) ∧
    (dictKeys (pyDictFrom acc (ks.map fun p => (p, f p)))).Nodup ∧
    (∀ q, (q, f q) ∈ acc → (q, f q) ∈ pyDictFrom acc (ks.map fun p => (p, f p))) ∧
    (∀ k ∈ ks, (k, f k) ∈ pyDictFrom acc (ks.map fun p => (p, f p)))
  | [], acc, h1, _, h3 => ⟨h1, h3, fun _ hq => hq, by simp⟩
  | k :: ks, acc, h1, h2, h3 => by
      have hstep : pyDictFrom acc ((k :: ks).map fun p => (p, f p)) =
          pyDictFrom (dictInsert acc k (f k)) (ks.map fun p => (p, f p)) := by
        simp [pyDictFrom]
      have h1' : ∀ e ∈ dictInsert acc k (f k), e.2 = f e.1 ∧ e.1 ∈ ps := by
        intro e he
        rcases mem_dictInsert acc k (f k) e he with rfl | hm
        · exact ⟨rfl, h2 k (List.mem_cons_self _ _)⟩
        · exact h1 e hm
      have h3' : (dictKeys (dictInsert acc k (f k))).Nodup :=
        nodup_dictKeys_dictInsert acc k (f k) h3
      obtain ⟨a, b, c, d⟩ := pyDictFrom_spec f ps ks (dictInsert acc k (f k)) h1'
        (fun k2 hk2 => h2 k2 (List.mem_cons_of_mem _ hk2)) h3'
      rw [hstep]
      refine ⟨a, b, ?_, ?_⟩
      · intro q hq
        exact c q (mem_dictInsert_of_mem f acc k q hq)
      · intro k2 hk2
        rcases List.mem_cons.mp hk2 with rfl | hk2'
        · exact c k2 (self_mem_dictInsert acc k2 (f k2))
        · exact d k2 hk2'

/-- Claim C10: requested-path totality.  When `get_added_lines` is called
with an explicit path filter and returns a mapping, the mapping holds
exactly one entry per requested path — each requested path maps to the
coalesced ranges of its collected added lines, the keys are free of
duplicates and drawn only from the requested paths, and a requested path
with no collected added lines (for example a file deleted on the head
side) maps to the empty range list instead of being absent. -/
theorem requested_paths_total (repo : GitRepo) (tr hr : Option String)
    (ps : List String) (base : Nat) (head : Option Nat)
    (m : List (String × List LineRange))
    (hres : resolveBase repo tr hr = .ok (base, head))
    (hm : get_added_lines repo tr hr (some ps) = .ok (some m)) :
    (∀ p ∈ ps, (p, rangeify (List.insertionSort (· ≤ ·)
      ((List.lookup p (collectLines (repo.diff base head (some ps)))).getD []))) ∈ m) ∧
    (dictKeys m).Nodup ∧
    (∀ e ∈ m, e.1 ∈ ps) ∧
    (∀ p ∈ ps, List.lookup p (collectLines (repo.diff base head (some ps))) = none →
      (p, []) ∈ m) := by
  unfold get_added_lines at hm
  rw [hres] at hm
  have hm2 : processDiffs (repo.diff base head (some ps)) (some ps) = some m :=
    Except.ok.inj hm
  unfold processDiffs at hm2
  by_cases he : (collectLines (repo.diff base head (some ps))).isEmpty = true
  · rw [if_pos he] at hm2
    exact absurd hm2 (by simp)
  · rw [if_neg he] at hm2
    have hbuild : buildResult (collectLines (repo.diff base head (some ps)))
        (some ps) = m := Option.some.inj hm2
    have hm3 : m = pyDictFrom []
        (ps.map fun p => (p, rangeify (List.insertionSort (· ≤ ·)
          ((List.lookup p (collectLines (repo.diff base head (some ps)))).getD [])))) := by
      rw [← hbuild]
      rfl
    obtain ⟨ha, hb, _, hd⟩ := pyDictFrom_spec
      (fun p => rangeify (List.insertionSort (· ≤ ·)
        ((List.lookup p (collectLines (repo.diff base head (some ps)))).getD [])))
      ps ps [] (by simp) (fun _ hk => hk) (by simp [dictKeys])
    refine ⟨?_, ?_, ?_, ?_⟩
    · intro p hp
      rw [hm3]
      exact hd p hp
    · rw [hm3]
      exact hb
    · intro e hemem
      rw [hm3] at hemem
      exact (ha e hemem).2
    · intro p hp hlk
      have hfp : rangeify (List.insertionSort (· ≤ ·)
          ((List.lookup p (collectLines (repo.diff base head (some ps)))).getD []))
          = [] := by
        rw [hlk]
        rfl
      have := hd p hp
      rw [hfp] at this
      rw [hm3]
      exact this

/-- Witness for claim C10: one added line in `a.yaml`, with `gone.txt`
also requested; the result maps `a.yaml` to its range and `gone.txt` to
the empty list. -/
theorem requested_paths_total_w :
    resolveBase (GitRepo.mk (fun _ => 0) 0 (fun _ => []) (fun _ _ => [])
        (fun _ _ _ => [DiffEntry.mk (some "a.yaml") [("a.yaml", 3)]])) none none =
      .ok (0, none) ∧
    get_added_lines (GitRepo.mk (fun _ => 0) 0 (fun _ => []) (fun _ _ => [])
        (fun _ _ _ => [DiffEntry.mk (some "a.yaml") [("a.yaml", 3)]])) none none
        (some ["a.yaml", "gone.txt"]) =
      .ok (some [("a.yaml", [⟨3, 4⟩]), ("gone.txt", [])]) ∧
    ((∀ p ∈ ["a.yaml", "gone.txt"], (p, rangeify (List.insertionSort (· ≤ ·)
      ((List.lookup p (collectLines ((GitRepo.mk (fun _ => 0) 0 (fun _ => [])
        (fun _ _ => []) (fun _ _ _ => [DiffEntry.mk (some "a.yaml") [("a.yaml", 3)]])).diff
        0 none (some ["a.yaml", "gone.txt"])))).getD []))) ∈
        [("a.yaml", [⟨3, 4⟩]), ("gone.txt", [])]) ∧
    (dictKeys [("a.yaml", [(⟨3, 4⟩ : LineRange)]), ("gone.txt", [])]).Nodup ∧
    (∀ e ∈ [("a.yaml", [(⟨3, 4⟩ : LineRange)]), ("gone.txt", [])],
      e.1 ∈ ["a.yaml", "gone.txt"]) ∧
    (∀ p ∈ ["a.yaml", "gone.txt"],
      List.lookup p (collectLines ((GitRepo.mk (fun _ => 0) 0 (fun _ => [])
        (fun _ _ => []) (fun _ _ _ => [DiffEntry.mk (some "a.yaml") [("a.yaml", 3)]])).diff
        0 none (some ["a.yaml", "gone.txt"]))) = none →
      (p, ([] : List LineRange)) ∈ [("a.yaml", [⟨3, 4⟩]), ("gone.txt", [])])) :=
  ⟨rfl, rfl,
    requested_paths_total _ none none ["a.yaml", "gone.txt"] 0 none
      [("a.yaml", [⟨3, 4⟩]), ("gone.txt", [])] rfl rfl⟩
